import Mathlib

/-!
Formal model of the Volt_XA codebook pipeline
(`tools/codebook_init.py` together with the codebook loader of
`tools/train_translator.py`).

Conventions of the shallow embedding:
* a byte is a natural number below 256, a file is a `List ℕ` of bytes;
* a 32-bit float value is represented by its 32-bit pattern, a natural
  number below 2^32 (serialization is bit-exact, so the byte layout is
  fully captured without modelling float arithmetic);
* real-valued vector arithmetic of the clusterer is idealized over ℚ,
  the normalizer over ℝ (for the square root);
* `numpy` / `sklearn` collaborators are modelled from their documented
  behaviour where the scripts call into them (`rng.choice` with
  `replace=False` fails when the requested sample exceeds the
  population; `MiniBatchKMeans.partial_fit` performs the incremental
  running-mean update described in the spec).
-/

/-- Magic bytes "VXCB" (`MAGIC = b"VXCB"` in `codebook_init.py`). -/
def MAGIC : List ℕ := [86, 88, 67, 66]

/-- Format version constant (`FORMAT_VERSION = 1`). -/
def FORMAT_VERSION : ℕ := 1

/-- Fixed target dimension (`TARGET_DIM = 256` in `codebook_init.py`). -/
def TARGET_DIM : ℕ := 256

/-- Expected dimension on the load side (`SLOT_DIM = 256` in `train_translator.py`). -/
def SLOT_DIM : ℕ := 256

/-- Little-endian 4-byte encoding of a 32-bit word (`struct.pack "<I"`,
and one little-endian f32 bit pattern of the payload). -/
def le32 (x : ℕ) : List ℕ := [x % 256, x / 256 % 256, x / 65536 % 256, x / 16777216 % 256]

/-- Little-endian 4-byte decoding (`struct.unpack "<I"`); returns 0 on a
list that does not have exactly four bytes (guarded by length checks at
every use site). -/
def dec32 (l : List ℕ) : ℕ :=
  match l with
  | [a, b, c, d] => a + 256 * b + 65536 * c + 16777216 * d
  | _ => 0

/-- Decoding of a byte stream into consecutive 32-bit words
(`np.frombuffer(-, dtype=np.float32)` on the payload, at bit-pattern
level); a trailing fragment of fewer than four bytes is dropped (the
caller checks divisibility first). -/
def decodeF32s : List ℕ → List ℕ
  | b0 :: b1 :: b2 :: b3 :: rest => dec32 [b0, b1, b2, b3] :: decodeF32s rest
  | _ => []

/-- Row-major reshape of a flat list into `n` rows of `d` entries
(`ndarray.reshape (entry_count, dim)`; the caller checks that the flat
length is exactly `n * d`). -/
def reshape : ℕ → ℕ → List ℕ → List (List ℕ)
  | 0, _, _ => []
  | n + 1, d, l => l.take d :: reshape n d (l.drop d)

/-- Centroid matrix as handed to the codec: a 2-D `float32` numpy array.
Rows hold the 32-bit patterns of the float entries; `dim` is the column
count (`shape[1]`), uniform across rows, and every entry fits in 32 bits. -/
structure NpMatrix where
  rows : List (List ℕ)
  dim : ℕ
  uniform : ∀ r ∈ rows, r.length = dim
  bounded : ∀ r ∈ rows, ∀ x ∈ r, x < 4294967296

/-- Model of `save_codebook` (`codebook_init.py`, lines 172-187): assert
`dim == TARGET_DIM` (an `AssertionError` aborts before the file is
opened, so nothing is written), then emit magic, version, entry count
and dimension as little-endian u32 followed by the row-major f32
payload. The produced byte list is the file contents. -/
def save_codebook (m : NpMatrix) : Except String (List ℕ) :=
  if m.dim = TARGET_DIM then
    Except.ok (MAGIC ++ le32 FORMAT_VERSION ++ le32 m.rows.length ++ le32 m.dim
      ++ m.rows.flatMap (fun r => r.flatMap le32))
  else
    Except.error ("AssertionError: dimension mismatch")

/-- Model of `load_codebook` (`train_translator.py`, lines 801-828):
check the 4 magic bytes, read (and never validate) the version word,
read entry count and dimension, reject a dimension other than
`SLOT_DIM`, then read `entry_count * dim * 4` payload bytes and reshape.
`f.read k` returns at most `k` bytes, hence the `take`; a short header
read makes `struct.unpack` fail, a short or ragged payload makes
`np.frombuffer` / `reshape` fail. -/
def load_codebook (bs : List ℕ) : Except String (List (List ℕ)) :=
  if bs.take 4 ≠ MAGIC then Except.error ("Invalid codebook magic") else
  let r1 := bs.drop 4
  if r1.length < 4 then Except.error ("struct.error: version field truncated") else
  let _version := dec32 (r1.take 4)
  let r2 := r1.drop 4
  if r2.length < 4 then Except.error ("struct.error: entry count field truncated") else
  let entry_count := dec32 (r2.take 4)
  let r3 := r2.drop 4
  if r3.length < 4 then Except.error ("struct.error: dim field truncated") else
  let dim := dec32 (r3.take 4)
  let r4 := r3.drop 4
  if dim ≠ SLOT_DIM then Except.error ("Codebook dim mismatch") else
  let payload := r4.take (entry_count * dim * 4)
  if payload.length % 4 ≠ 0 then Except.error ("np.frombuffer: buffer size not a multiple of element size") else
  let flat := decodeF32s payload
  if flat.length ≠ entry_count * dim then Except.error ("reshape: size mismatch") else
  Except.ok (reshape entry_count dim flat)

/-- Entry-count header field of a codebook file (bytes 8-11, u32 LE). -/
def hdrEntryCount (bs : List ℕ) : ℕ := dec32 ((bs.drop 8).take 4)

/-- Dimension header field of a codebook file (bytes 12-15, u32 LE). -/
def hdrDim (bs : List ℕ) : ℕ := dec32 ((bs.drop 12).take 4)

/-- Whitespace characters stripped by Python `str.strip` and accepted
around a `float` literal. -/
def isSpaceChar (c : Char) : Bool :=
  c = ' ' ∨ c = '\t' ∨ c = '\n' ∨ c = '\r' ∨ c = '\x0b' ∨ c = '\x0c'

/-- ASCII decimal digit test. -/
def isDigitChar (c : Char) : Bool := '0' ≤ c ∧ c ≤ '9'

/-- Numeric value of a decimal digit character. -/
def digitVal (c : Char) : ℕ := c.toNat - 48

/-- Value of a digit run, most significant first. -/
def digitsVal (l : List Char) : ℕ := l.foldl (fun a c => 10 * a + digitVal c) 0

/-- Trailing-whitespace strip (`str.rstrip` applied to each corpus line). -/
def rstripWS (l : List Char) : List Char := (l.reverse.dropWhile isSpaceChar).reverse

/-- Both-sided whitespace strip (Python `float` ignores surrounding
whitespace of its argument). -/
def stripWS (l : List Char) : List Char :=
  ((l.dropWhile isSpaceChar).reverse.dropWhile isSpaceChar).reverse

/-- Split on one separator character; like Python `str.split " "`,
consecutive separators produce empty fields. -/
def splitOnChar (sep : Char) (l : List Char) : List (List Char) :=
  l.foldr
    (fun c acc =>
      if c = sep then [] :: acc
      else
        match acc with
        | h :: t => (c :: h) :: t
        | [] => [[c]])
    [[]]

/-- Optional sign character; returns whether the sign is negative and the
remaining characters. -/
def takeSign : List Char → Bool × List Char
  | '-' :: rest => (true, rest)
  | '+' :: rest => (false, rest)
  | l => (false, l)

/-- Mantissa of a float literal: digits, optionally with a decimal point,
requiring at least one digit overall. Returns its rational value and the
unconsumed suffix. -/
def parseMantissa (l : List Char) : Option (ℚ × List Char) :=
  let intDigits := l.takeWhile isDigitChar
  let rest1 := l.dropWhile isDigitChar
  match rest1 with
  | '.' :: rest2 =>
    let fracDigits := rest2.takeWhile isDigitChar
    let rest3 := rest2.dropWhile isDigitChar
    if intDigits = [] ∧ fracDigits = [] then none
    else some ((digitsVal intDigits : ℚ) + (digitsVal fracDigits : ℚ) / 10 ^ fracDigits.length, rest3)
  | _ => if intDigits = [] then none else some ((digitsVal intDigits : ℚ), rest1)

/-- Optional exponent part of a float literal, which must consume the
whole remaining input; returns the scale factor. -/
def parseExpPart : List Char → Option ℚ
  | [] => some 1
  | e :: rest =>
    if e = 'e' ∨ e = 'E' then
      let s := takeSign rest
      let ds := s.2.takeWhile isDigitChar
      let r3 := s.2.dropWhile isDigitChar
      if ds = [] ∨ r3 ≠ [] then none
      else some (if s.1 then (1 : ℚ) / 10 ^ digitsVal ds else (10 : ℚ) ^ digitsVal ds)
    else none

/-- Model of Python `float(tok)` on one whitespace-stripped token:
optional sign, decimal mantissa, optional exponent (the special forms
`inf` / `nan` / underscore separators, absent from numeric corpora, are
omitted). `none` models the `ValueError` that makes `load_embeddings`
skip the line. -/
def parseFloat (tok : List Char) : Option ℚ :=
  let s := stripWS tok
  let sg := takeSign s
  match parseMantissa sg.2 with
  | none => none
  | some (m, rest) =>
    match parseExpPart rest with
    | none => none
    | some mult => some ((if sg.1 then -m else m) * mult)

/-- All-or-nothing float parsing of the numeric fields of a line
(`[float x for x in parts[1:]]`: one `ValueError` discards the whole
line). -/
def parseFloats : List (List Char) → Option (List ℚ)
  | [] => some []
  | t :: rest =>
    match parseFloat t with
    | none => none
    | some v =>
      match parseFloats rest with
      | none => none
      | some vs => some (v :: vs)

/-- Per-line parsing of `load_embeddings` (`codebook_init.py`, lines
58-65): `line.rstrip().split(" ")`; lines with fewer than 3 fields are
skipped as headers, lines with a failing numeric field are skipped as
malformed; otherwise the vector is the parsed fields after the token. -/
def parseLine (line : List Char) : Option (List ℚ) :=
  let parts := splitOnChar ' ' (rstripWS line)
  if parts.length < 3 then none
  else parseFloats (parts.drop 1)

/-- Lines consumed under the optional `max_vocab` cap (`if i >= max_vocab: break`). -/
def linesConsumed (lines : List (List Char)) : Option ℕ → List (List Char)
  | none => lines
  | some m => lines.take m

/-- Model of `load_embeddings` (`codebook_init.py`, lines 46-69): parse
each consumed line, keep the successfully parsed vectors in order, and
stack them. `np.stack` raises on an empty list, which is the fatal
empty-corpus failure (`CorpusEmptyError` of the spec). -/
def load_embeddings (lines : List (List Char)) (maxVocab : Option ℕ) : Except String (List (List ℚ)) :=
  let vectors := (linesConsumed lines maxVocab).filterMap parseLine
  if vectors = [] then Except.error ("np.stack: need at least one array to stack")
  else Except.ok vectors

/-- Epsilon of the normalizer (`1e-10` in `l2_normalize`). -/
noncomputable def normEps : ℝ := 1 / 10000000000

/-- Sum of squared entries of a row. -/
noncomputable def sumSq (r : List ℝ) : ℝ := (r.map (fun x => x * x)).sum

/-- L2 norm of a row (`np.linalg.norm` along `axis=1`). -/
noncomputable def rowNorm (r : List ℝ) : ℝ := Real.sqrt (sumSq r)

/-- Per-row action of `l2_normalize`: clamp the norm from below by
`normEps` (`np.maximum(norms, 1e-10)`) and divide the row by it. -/
noncomputable def normalizeRow (r : List ℝ) : List ℝ :=
  let c := max (rowNorm r) normEps
  r.map (fun x => x / c)

/-- Model of `l2_normalize` (`codebook_init.py`, lines 89-93): each row
is divided by its clamped L2 norm. Float arithmetic is idealized over ℝ
(the final `astype(np.float32)` rounding is the identity here). -/
noncomputable def l2_normalize (data : List (List ℝ)) : List (List ℝ) :=
  data.map normalizeRow

/-- State of an explicit seedable pseudo-random generator. The scripts
seed `np.random.RandomState(42)` and `random_state=42`; the exact
generator is an external collaborator, modelled here by a concrete
64-bit linear congruential generator so that every draw is a pure
function of the seed. -/
structure RngState where
  seed : ℕ

/-- One LCG step (64-bit). -/
def lcgNext (s : ℕ) : ℕ := (6364136223846793005 * s + 1442695040888963407) % 18446744073709551616

/-- Draw a natural number below `bound` (0 when `bound = 0`, a case no
call site reaches), advancing the generator. -/
def rngNat (r : RngState) (bound : ℕ) : ℕ × RngState :=
  let s := lcgNext r.seed
  (if bound = 0 then 0 else s % bound, ⟨s⟩)

/-- Fisher-Yates style shuffle of a list of naturals, fuelled by the
list length: repeatedly draw a position, move that element to the
front of the output, and recurse on the remainder. -/
def shuffleNatGo : ℕ → List ℕ → RngState → List ℕ × RngState
  | 0, _, r => ([], r)
  | fuel + 1, l, r =>
    let d := rngNat r l.length
    let x := l.getD d.1 0
    let rest := l.eraseIdx d.1
    let t := shuffleNatGo fuel rest d.2
    (x :: t.1, t.2)

/-- Model of `rng.permutation` on a list of indices. -/
def shuffleNat (l : List ℕ) (r : RngState) : List ℕ × RngState := shuffleNatGo l.length l r

/-- Model of `rng.choice(n, size, replace=False)`: `size` distinct
indices drawn from `range n`; numpy raises `ValueError` ("cannot take a
larger sample than population") when `size > n`, modelled as `none`. -/
def rngChoiceNoReplace (r : RngState) (n size : ℕ) : Option (List ℕ × RngState) :=
  if size ≤ n then
    let p := shuffleNat (List.range n) r
    some (p.1.take size, p.2)
  else none

/-- Pointwise vector addition (truncating to the shorter operand; all
call sites use equal lengths). -/
def vadd (a b : List ℚ) : List ℚ := List.zipWith (· + ·) a b

/-- Pointwise vector subtraction. -/
def vsub (a b : List ℚ) : List ℚ := List.zipWith (· - ·) a b

/-- Scalar multiple of a vector. -/
def vscale (c : ℚ) (v : List ℚ) : List ℚ := v.map (fun x => c * x)

/-- Squared Euclidean distance between two rows. -/
def sqdist (a b : List ℚ) : ℚ := ((vsub a b).map (fun x => x * x)).sum

/-- Sum of a list of rows, starting from the zero vector of length `d`. -/
def vsumD (d : ℕ) (l : List (List ℚ)) : List ℚ := l.foldl vadd (List.replicate d 0)

/-- Index of the nearest centroid by squared Euclidean distance, ties to
the lowest index. -/
def argminAux : List (ℕ × ℚ) → ℕ × ℚ → ℕ
  | [], best => best.1
  | p :: rest, best => if p.2 < best.2 then argminAux rest p else argminAux rest best

/-- Nearest-centroid assignment of one sample. -/
def nearestIdx (centers : List (List ℚ)) (x : List ℚ) : ℕ :=
  match centers with
  | [] => 0
  | c :: cs => argminAux (cs.mapIdx (fun j cj => (j + 1, sqdist x cj))) (0, sqdist x c)

/-- Mutable working state of the clusterer (`ClusterAssignmentState` of
the spec): current centroids, per-centroid running sample counts, and
the inertia of the last processed batch (`MiniBatchKMeans.inertia_`). -/
structure KMState where
  centers : List (List ℚ)
  counts : List ℚ
  inertia : ℚ

/-- One incremental mini-batch update (`MiniBatchKMeans.partial_fit` on
an already-initialized estimator, as described in spec section 4.4):
assign every batch sample to its nearest centroid, then move each
centroid that received `m > 0` samples to
`old + (batch_mean - old) * (m / (running_count + m))` and add `m` to
its running count; record the batch inertia measured against the
pre-update centroids. -/
def miniBatchStep (km : KMState) (batch : List (List ℚ)) : KMState :=
  let asg := batch.map (fun x => (nearestIdx km.centers x, x))
  let inertiaB := (batch.map (fun x => sqdist x (km.centers.getD (nearestIdx km.centers x) []))).sum
  let newCenters := km.centers.mapIdx (fun i c =>
    let assigned := (asg.filter (fun p => p.1 == i)).map (fun p => p.2)
    let m := assigned.length
    if m = 0 then c
    else
      let cnt := km.counts.getD i 0
      let mean := vscale (1 / (m : ℚ)) (vsumD c.length assigned)
      vadd c (vscale ((m : ℚ) / (cnt + (m : ℚ))) (vsub mean c)))
  let newCounts := km.counts.mapIdx (fun i cnt =>
    cnt + (((asg.filter (fun p => p.1 == i)).length : ℚ)))
  ⟨newCenters, newCounts, inertiaB⟩

/-- First `partial_fit` call on a fresh estimator with `init="random"`:
seed the `k` centroids with `k` rows drawn at random from the batch
(using the estimator's own seeded generator), zero the running counts,
then perform one incremental update pass over the batch. -/
def initKM (k : ℕ) (batch : List (List ℚ)) (rng : RngState) : KMState × RngState :=
  let p := shuffleNat (List.range batch.length) rng
  let centers := (p.1.take k).map (fun i => batch.getD i [])
  (miniBatchStep ⟨centers, List.replicate k 0, 0⟩ batch, p.2)

/-- Batches of one epoch (`codebook_init.py`, lines 140-143): the
shuffled index list is cut into `batchesPerEpoch` contiguous slices
`perm[b*batch_size : min(b*batch_size + batch_size, n)]` and gathered
from the data. -/
def kmBatches (data : List (List ℚ)) (perm : List ℕ) (batchSize batchesPerEpoch : ℕ) :
    List (List (List ℚ)) :=
  (List.range batchesPerEpoch).map (fun b =>
    let start := b * batchSize
    let stop := min (start + batchSize) data.length
    ((perm.drop start).take (stop - start)).map (fun i => data.getD i []))

/-- Epoch loop of `kmeans_cluster` (`codebook_init.py`, lines 138-165),
fuelled by the remaining epochs: shuffle the indices, fold the
incremental update over the epoch's batches, and every 10 epochs
perform the convergence check — break when the relative inertia
improvement since the previous check is strictly between 0 and 0.01
percent and the 0-based epoch index exceeds 50, updating the previous
inertia otherwise. -/
def kmEpochGo (data : List (List ℚ)) (batchSize batchesPerEpoch : ℕ) :
    ℕ → ℕ → Option ℚ → KMState → RngState → KMState
  | 0, _, _, km, _ => km
  | fuel + 1, e, prev, km, rng =>
    let p := shuffleNat (List.range data.length) rng
    let km2 := (kmBatches data p.1 batchSize batchesPerEpoch).foldl miniBatchStep km
    if (e + 1) % 10 = 0 then
      let inertia := km2.inertia
      let delta : ℚ :=
        match prev with
        | none => 0
        | some pv => (pv - inertia) / pv * 100
      if 0 < delta ∧ delta < 1 / 100 ∧ 50 < e then km2
      else kmEpochGo data batchSize batchesPerEpoch fuel (e + 1) (some inertia) km2 p.2
    else kmEpochGo data batchSize batchesPerEpoch fuel (e + 1) prev km2 p.2

/-- Model of `kmeans_cluster` (`codebook_init.py`, lines 104-169): draw
`max(k, batch_size)` distinct sample indices (this is where
`rng.choice(..., replace=False)` fails when `max(k, batch_size) > n`),
seed the estimator with one `partial_fit` over them, then run up to
`max_iter` epochs of mini-batch updates with the convergence check, and
return the centroid matrix. -/
def kmeans_cluster (seed : ℕ) (data : List (List ℚ)) (k : ℕ) (batchSize : ℕ) (maxIter : ℕ) :
    Option (List (List ℚ)) :=
  let n := data.length
  let batchesPerEpoch := max 1 (n / batchSize)
  let initSize := max k batchSize
  match rngChoiceNoReplace ⟨seed⟩ n initSize with
  | none => none
  | some (indices, rng1) =>
    let initBatch := indices.map (fun i => data.getD i [])
    let km0 := initKM k initBatch ⟨seed⟩
    let kmF := kmEpochGo data batchSize batchesPerEpoch maxIter 0 none km0.1 rng1
    some kmF.centers

/-- Convergence control flow of the epoch loop in isolation
(`codebook_init.py`, lines 138-165), parametrized by the inertia value
`I e` that `kmeans.inertia_` holds at the end of epoch `e`: run epochs
`e, e+1, ...` with `fuel` epochs remaining and previous checked inertia
`prev`, returning the number of completed epochs (so a result below the
epoch cap means the `break` fired). -/
def kmeansEpochLoopGo (I : ℕ → ℚ) : ℕ → ℕ → Option ℚ → ℕ
  | 0, e, _ => e
  | fuel + 1, e, prev =>
    if (e + 1) % 10 = 0 then
      let inertia := I e
      let delta : ℚ :=
        match prev with
        | none => 0
        | some pv => (pv - inertia) / pv * 100
      if 0 < delta ∧ delta < 1 / 100 ∧ 50 < e then e + 1
      else kmeansEpochLoopGo I fuel (e + 1) (some inertia)
    else kmeansEpochLoopGo I fuel (e + 1) prev

/-- Number of epochs the loop `for epoch in range(max_iter)` completes
for inertia trace `I` and epoch cap `E` (`prev_inertia` starts at
`float("inf")`, modelled as `none`). -/
def kmeansEpochsRun (I : ℕ → ℚ) (E : ℕ) : ℕ := kmeansEpochLoopGo I E 0 none

/-- Previous checked inertia held in `prev_inertia` at the start of
epoch `e` when no break has fired: `none` before the first check
(epoch 9), afterwards the inertia of the latest check epoch below `e`. -/
def prevCheckInertia (I : ℕ → ℚ) (e : ℕ) : Option ℚ :=
  if e < 10 then none else some (I (10 * (e / 10) - 1))

/-- Relative inertia improvement (in percent) computed at the check of
epoch `e`: 0 at the first check, `(prev - I e) / prev * 100` afterwards. -/
def deltaAt (I : ℕ → ℚ) (e : ℕ) : ℚ :=
  match prevCheckInertia I e with
  | none => 0
  | some pv => (pv - I e) / pv * 100

/-- Break condition of the convergence check as a function of the epoch
index alone: epoch `e` is a check epoch, the improvement is strictly
between 0 and 0.01 percent, and the 0-based epoch index exceeds 50. -/
def stopCondB (I : ℕ → ℚ) (e : ℕ) : Bool :=
  decide ((e + 1) % 10 = 0 ∧ 0 < deltaAt I e ∧ deltaAt I e < 1 / 100 ∧ 50 < e)

/-- First epoch index below `E` whose check fires the break, if any. -/
def firstStop (I : ℕ → ℚ) (E : ℕ) : Option ℕ := (List.range E).find? (stopCondB I)

/-- Concrete inertia trace used to exercise the convergence policy: the
improvement at the epoch-49 check is 0.005 percent (strictly between 0
and 0.01 percent, with 50 epochs elapsed) while every other check sees a
large improvement. -/
def inertiaTrace0 (e : ℕ) : ℚ :=
  if e = 19 then 500
  else if e = 29 then 400
  else if e = 39 then 200
  else if e = 49 then 19999 / 100
  else if e = 59 then 100
  else 1000

theorem le32_length (x : ℕ) : (le32 x).length = 4 := rfl

theorem dec32_le32 (x : ℕ) (h : x < 4294967296) : dec32 (le32 x) = x := by
  simp only [le32, dec32]
  omega

theorem decodeF32s_flatMap_le32 (l : List ℕ) (h : ∀ x ∈ l, x < 4294967296) :
    decodeF32s (l.flatMap le32) = l := by
  induction l with
  | nil => rfl
  | cons x xs ih =>
    have hx : x < 4294967296 := h x (List.mem_cons_self x xs)
    have hxs : ∀ y ∈ xs, y < 4294967296 := fun y hy => h y (List.mem_cons_of_mem x hy)
    have hstep : (x :: xs).flatMap le32
        = x % 256 :: (x / 256 % 256 :: (x / 65536 % 256 :: (x / 16777216 % 256 :: xs.flatMap le32))) := by
      simp [le32]
    rw [hstep]
    show dec32 [x % 256, x / 256 % 256, x / 65536 % 256, x / 16777216 % 256] :: decodeF32s (xs.flatMap le32) = x :: xs
    rw [ih hxs]
    have : dec32 [x % 256, x / 256 % 256, x / 65536 % 256, x / 16777216 % 256] = x := dec32_le32 x hx
    rw [this]

theorem flatMap_le32_length (l : List ℕ) : (l.flatMap le32).length = 4 * l.length := by
  induction l with
  | nil => rfl
  | cons x xs ih => simp [le32, ih]; ring

theorem rows_flatMap_eq (rows : List (List ℕ)) :
    rows.flatMap (fun r => r.flatMap le32) = rows.flatten.flatMap le32 := by
  induction rows with
  | nil => rfl
  | cons r rs ih => simp [ih]

theorem flatten_length_uniform (rows : List (List ℕ)) (d : ℕ) (h : ∀ r ∈ rows, r.length = d) :
    rows.flatten.length = rows.length * d := by
  induction rows with
  | nil => simp
  | cons r rs ih =>
    have hr : r.length = d := h r (List.mem_cons_self r rs)
    have hrs := ih (fun q hq => h q (List.mem_cons_of_mem r hq))
    simp [hr, hrs]
    ring

theorem reshape_flatten (rows : List (List ℕ)) (d : ℕ) (h : ∀ r ∈ rows, r.length = d) :
    reshape rows.length d rows.flatten = rows := by
  induction rows with
  | nil => rfl
  | cons r rs ih =>
    have hr : r.length = d := h r (List.mem_cons_self r rs)
    have hrs : ∀ q ∈ rs, q.length = d := fun q hq => h q (List.mem_cons_of_mem r hq)
    have ht : (r ++ rs.flatten).take d = r := by rw [← hr]; exact List.take_left r rs.flatten
    have hdrop : (r ++ rs.flatten).drop d = rs.flatten := by
      rw [← hr]; exact List.drop_left r rs.flatten
    show (r ++ rs.flatten).take d :: reshape rs.length d ((r ++ rs.flatten).drop d) = r :: rs
    rw [ht, hdrop, ih hrs]

/-- Payload bytes written by `save_codebook` for matrix `m`. -/
def payloadBytes (m : NpMatrix) : List ℕ := m.rows.flatMap (fun r => r.flatMap le32)

theorem payloadBytes_length (m : NpMatrix) : (payloadBytes m).length = m.rows.length * m.dim * 4 := by
  rw [payloadBytes, rows_flatMap_eq, flatMap_le32_length,
    flatten_length_uniform m.rows m.dim m.uniform]
  ring

/-- Claim C3: for every centroid matrix of shape `(entry_count, dim)`
with `dim` equal to the fixed target dimension, `save_codebook` succeeds
and produces exactly the magic bytes "VXCB", the little-endian u32
format version 1, the little-endian u32 entry count, the little-endian
u32 dimension, and then the `entry_count * dim` little-endian 32-bit
float words in row-major order; the total length is
`16 + entry_count * dim * 4` bytes. (The entry count must fit the u32
field, as `struct.pack` requires.) -/
theorem c3_save_codebook_layout (m : NpMatrix) (hd : m.dim = TARGET_DIM)
    (_hn : m.rows.length < 4294967296) :
    save_codebook m
        = Except.ok (MAGIC ++ le32 FORMAT_VERSION ++ le32 m.rows.length ++ le32 m.dim
            ++ m.rows.flatMap (fun r => r.flatMap le32))
      ∧ ∀ bs, save_codebook m = Except.ok bs → bs.length = 16 + m.rows.length * m.dim * 4 := by
  constructor
  · rw [save_codebook, if_pos hd]
  · intro bs hbs
    rw [save_codebook, if_pos hd] at hbs
    cases hbs
    have hp : (m.rows.flatMap fun r => r.flatMap le32).length = m.rows.length * m.dim * 4 :=
      payloadBytes_length m
    simp [MAGIC, le32, hp]
    ring

/-- Witness for C3 at a concrete one-row matrix of dimension 256. -/
def zeroRowMatrix : NpMatrix :=
  ⟨[List.replicate 256 0], 256,
    by
      intro r hr
      rw [List.mem_singleton] at hr
      rw [hr, List.length_replicate],
    by
      intro r hr x hx
      rw [List.mem_singleton] at hr
      rw [hr] at hx
      rw [List.eq_of_mem_replicate hx]
      norm_num⟩

theorem c3_save_codebook_layout_witness :
    save_codebook zeroRowMatrix
        = Except.ok (MAGIC ++ le32 FORMAT_VERSION ++ le32 zeroRowMatrix.rows.length
            ++ le32 zeroRowMatrix.dim
            ++ zeroRowMatrix.rows.flatMap (fun r => r.flatMap le32))
      ∧ ∀ bs, save_codebook zeroRowMatrix = Except.ok bs
          → bs.length = 16 + zeroRowMatrix.rows.length * zeroRowMatrix.dim * 4 :=
  c3_save_codebook_layout zeroRowMatrix (by decide) (by decide)

/-- Claim C7: the codec write succeeds exactly when the matrix's column
count equals the fixed target dimension; otherwise the dimension assert
fires (`AssertionError`, the `DimensionMismatchError` of the spec)
before the file is opened, so nothing is written. -/
theorem c7_save_codebook_dim_check (m : NpMatrix) :
    (∃ bs, save_codebook m = Except.ok bs) ↔ m.dim = TARGET_DIM := by
  constructor
  · intro h
    by_contra hne
    rcases h with ⟨bs, hbs⟩
    rw [save_codebook, if_neg hne] at hbs
    cases hbs
  · intro hd
    exact ⟨_, by rw [save_codebook, if_pos hd]⟩

theorem decodeF32s_length (k : ℕ) : ∀ l : List ℕ, l.length = 4 * k → (decodeF32s l).length = k := by
  induction k with
  | zero =>
    intro l hl
    have hnil : l = [] := List.eq_nil_of_length_eq_zero (by omega)
    rw [hnil]
    rfl
  | succ k ih =>
    intro l hl
    match l with
    | [] => simp at hl
    | [b0] => simp at hl; omega
    | [b0, b1] => simp at hl; omega
    | [b0, b1, b2] => simp at hl; omega
    | b0 :: b1 :: b2 :: b3 :: rest =>
      have hr : rest.length = 4 * k := by simp at hl; omega
      show (dec32 [b0, b1, b2, b3] :: decodeF32s rest).length = k + 1
      simp [ih rest hr]

theorem take4_append (l rest : List ℕ) (hl : l.length = 4) : (l ++ rest).take 4 = l := by
  rw [← hl, List.take_left]

theorem drop4_append (l rest : List ℕ) (hl : l.length = 4) : (l ++ rest).drop 4 = rest := by
  rw [← hl, List.drop_left]

theorem load_codebook_parse (v n : ℕ) (payload : List ℕ)
    (hn : n < 4294967296) (hp : payload.length = n * 256 * 4) :
    load_codebook (MAGIC ++ le32 v ++ le32 n ++ le32 256 ++ payload)
      = Except.ok (reshape n 256 (decodeF32s payload)) := by
  have hassoc : MAGIC ++ le32 v ++ le32 n ++ le32 256 ++ payload
      = MAGIC ++ (le32 v ++ (le32 n ++ (le32 256 ++ payload))) := by
    simp [List.append_assoc]
  rw [hassoc]
  simp only [load_codebook]
  rw [take4_append MAGIC _ rfl, drop4_append MAGIC _ rfl]
  rw [if_neg (by simp)]
  rw [if_neg (show ¬(le32 v ++ (le32 n ++ (le32 256 ++ payload))).length < 4 by
    rw [List.length_append, le32_length]; omega)]
  rw [drop4_append (le32 v) _ rfl]
  rw [if_neg (show ¬(le32 n ++ (le32 256 ++ payload)).length < 4 by
    rw [List.length_append, le32_length]; omega)]
  rw [drop4_append (le32 n) _ rfl, take4_append (le32 n) _ rfl]
  rw [if_neg (show ¬(le32 256 ++ payload).length < 4 by
    rw [List.length_append, le32_length]; omega)]
  rw [drop4_append (le32 256) _ rfl, take4_append (le32 256) _ rfl]
  rw [dec32_le32 n hn]
  have h256 : dec32 (le32 256) = 256 := by decide
  rw [h256]
  rw [if_neg (show ¬(256 ≠ SLOT_DIM) by decide)]
  have htl : payload.take (n * 256 * 4) = payload := by
    rw [← hp, List.take_length]
  rw [htl]
  rw [if_neg (show ¬payload.length % 4 ≠ 0 by omega)]
  have hdl : (decodeF32s payload).length = n * 256 :=
    decodeF32s_length (n * 256) payload (by omega)
  rw [if_neg (show ¬(decodeF32s payload).length ≠ n * 256 by omega)]

/-- Claim C9: `load_codebook` never validates the version field. Every
file whose magic is "VXCB", whose dimension field is the expected fixed
dimension 256 and whose payload is complete is accepted and decoded, for
any u32 stored in the version field, and the decoding result is
identical to the one with version 1. -/
theorem c9_load_codebook_ignores_version (v n : ℕ) (payload : List ℕ)
    (_hv : v < 4294967296) (hn : n < 4294967296) (hp : payload.length = n * 256 * 4) :
    (∃ M, load_codebook (MAGIC ++ le32 v ++ le32 n ++ le32 256 ++ payload) = Except.ok M)
    ∧ load_codebook (MAGIC ++ le32 v ++ le32 n ++ le32 256 ++ payload)
        = load_codebook (MAGIC ++ le32 FORMAT_VERSION ++ le32 n ++ le32 256 ++ payload) := by
  constructor
  · exact ⟨_, load_codebook_parse v n payload hn hp⟩
  · rw [load_codebook_parse v n payload hn hp,
      load_codebook_parse FORMAT_VERSION n payload hn hp]

/-- Witness for C9: a file with version word 7 is decoded like one with
version word 1. -/
theorem c9_load_codebook_ignores_version_witness :
    (∃ M, load_codebook (MAGIC ++ le32 7 ++ le32 0 ++ le32 256 ++ []) = Except.ok M)
    ∧ load_codebook (MAGIC ++ le32 7 ++ le32 0 ++ le32 256 ++ [])
        = load_codebook (MAGIC ++ le32 FORMAT_VERSION ++ le32 0 ++ le32 256 ++ []) :=
  c9_load_codebook_ignores_version 7 0 [] (by decide) (by decide) (by decide)

/-- Claim C4: codec round-trip. Writing a centroid matrix whose column
count is the fixed target dimension with `save_codebook` and reading the
file back with `load_codebook` recovers exactly the original matrix (the
f32 payload is bit-exact), and the header fields hold the matrix's entry
count and dimension. -/
theorem c4_codec_round_trip (m : NpMatrix) (hd : m.dim = TARGET_DIM)
    (hn : m.rows.length < 4294967296) :
    ∃ bs, save_codebook m = Except.ok bs
      ∧ load_codebook bs = Except.ok m.rows
      ∧ hdrEntryCount bs = m.rows.length
      ∧ hdrDim bs = m.dim := by
  have hd256 : m.dim = 256 := hd
  refine ⟨MAGIC ++ le32 FORMAT_VERSION ++ le32 m.rows.length ++ le32 m.dim
      ++ m.rows.flatMap (fun r => r.flatMap le32), ?_, ?_, ?_, ?_⟩
  · rw [save_codebook, if_pos hd]
  · have hp : (m.rows.flatMap fun r => r.flatMap le32).length = m.rows.length * 256 * 4 := by
      have hpl := payloadBytes_length m
      rw [payloadBytes] at hpl
      rw [hpl, hd256]
    have hflat : decodeF32s (m.rows.flatMap fun r => r.flatMap le32) = m.rows.flatten := by
      rw [rows_flatMap_eq]
      apply decodeF32s_flatMap_le32
      intro x hx
      rw [List.mem_flatten] at hx
      rcases hx with ⟨r, hr, hxr⟩
      exact m.bounded r hr x hxr
    have huni : ∀ r ∈ m.rows, r.length = 256 := by
      intro r hr
      rw [m.uniform r hr, hd256]
    rw [hd256, load_codebook_parse FORMAT_VERSION m.rows.length _ hn hp, hflat,
      reshape_flatten m.rows 256 huni]
  · rw [hdrEntryCount]
    have hassoc : MAGIC ++ le32 FORMAT_VERSION ++ le32 m.rows.length ++ le32 m.dim
        ++ m.rows.flatMap (fun r => r.flatMap le32)
        = (MAGIC ++ le32 FORMAT_VERSION)
          ++ (le32 m.rows.length ++ (le32 m.dim ++ m.rows.flatMap (fun r => r.flatMap le32))) := by
      simp [List.append_assoc]
    rw [hassoc]
    rw [show (8 : ℕ) = (MAGIC ++ le32 FORMAT_VERSION).length from rfl, List.drop_left]
    rw [take4_append (le32 m.rows.length) _ rfl, dec32_le32 m.rows.length hn]
  · rw [hdrDim]
    have hassoc : MAGIC ++ le32 FORMAT_VERSION ++ le32 m.rows.length ++ le32 m.dim
        ++ m.rows.flatMap (fun r => r.flatMap le32)
        = ((MAGIC ++ le32 FORMAT_VERSION) ++ le32 m.rows.length)
          ++ (le32 m.dim ++ m.rows.flatMap (fun r => r.flatMap le32)) := by
      simp [List.append_assoc]
    rw [hassoc]
    rw [show (12 : ℕ) = ((MAGIC ++ le32 FORMAT_VERSION) ++ le32 m.rows.length).length from rfl,
      List.drop_left]
    rw [take4_append (le32 m.dim) _ rfl]
    rw [hd256]
    decide

/-- Witness for C4 at a concrete one-row matrix of dimension 256. -/
theorem c4_codec_round_trip_witness :
    ∃ bs, save_codebook zeroRowMatrix = Except.ok bs
      ∧ load_codebook bs = Except.ok zeroRowMatrix.rows
      ∧ hdrEntryCount bs = zeroRowMatrix.rows.length
      ∧ hdrDim bs = zeroRowMatrix.dim :=
  c4_codec_round_trip zeroRowMatrix (by decide) (by decide)

/-- Claim C8: whenever zero vectors parse from the consumed lines (empty
file, or every line skipped as a header or as malformed),
`load_embeddings` fails (the `CorpusEmptyError` of the spec, raised by
`np.stack` on an empty list) instead of returning a VectorSet. -/
theorem c8_load_embeddings_empty (lines : List (List Char)) (maxVocab : Option ℕ)
    (h : ∀ l ∈ linesConsumed lines maxVocab, parseLine l = none) :
    ∃ e, load_embeddings lines maxVocab = Except.error e := by
  have hfm : (linesConsumed lines maxVocab).filterMap parseLine = [] := by
    rw [List.filterMap_eq_nil_iff]
    exact h
  refine ⟨"np.stack: need at least one array to stack", ?_⟩
  simp only [load_embeddings, hfm]
  simp

/-- Witness for C8: a one-line corpus whose only line is malformed. -/
theorem c8_load_embeddings_empty_witness :
    ∃ e, load_embeddings [['a']] none = Except.error e :=
  c8_load_embeddings_empty [['a']] none (by decide)

theorem takeSign_decomp (s : List Char) :
    s = (takeSign s).2 ∨ s = '-' :: (takeSign s).2 ∨ s = '+' :: (takeSign s).2 := by
  unfold takeSign
  split
  · right; left; rfl
  · right; right; rfl
  · left; rfl

theorem parseMantissa_chars (l : List Char) (m : ℚ) (rest : List Char)
    (h : parseMantissa l = some (m, rest)) :
    ∀ c ∈ l, c ∈ rest ∨ isDigitChar c = true ∨ c = '.' := by
  intro c hc
  have hsplit : l.takeWhile isDigitChar ++ l.dropWhile isDigitChar = l :=
    List.takeWhile_append_dropWhile isDigitChar l
  rw [← hsplit] at hc
  rcases List.mem_append.mp hc with hI | hD
  · exact Or.inr (Or.inl (List.mem_takeWhile_imp hI))
  · simp only [parseMantissa] at h
    split at h
    · next rest2 heq =>
      rw [heq] at hD
      rcases List.mem_cons.mp hD with hdot | h2
      · exact Or.inr (Or.inr hdot)
      · have hsplit2 : rest2.takeWhile isDigitChar ++ rest2.dropWhile isDigitChar = rest2 :=
          List.takeWhile_append_dropWhile isDigitChar rest2
        rw [← hsplit2] at h2
        rcases List.mem_append.mp h2 with hF | hR
        · exact Or.inr (Or.inl (List.mem_takeWhile_imp hF))
        · split at h
          · exact absurd h (by simp)
          · have : rest2.dropWhile isDigitChar = rest := by
              have := Option.some.inj h
              exact congrArg Prod.snd this
            rw [this] at hR
            exact Or.inl hR
    · split at h
      · exact absurd h (by simp)
      · have : l.dropWhile isDigitChar = rest := by
          have := Option.some.inj h
          exact congrArg Prod.snd this
        rw [this] at hD
        exact Or.inl hD

theorem parseExpPart_chars (rest : List Char) (q : ℚ) (h : parseExpPart rest = some q) :
    ∀ c ∈ rest, c = 'e' ∨ c = 'E' ∨ c = '-' ∨ c = '+' ∨ isDigitChar c = true := by
  intro c hc
  match rest with
  | [] => cases hc
  | e :: r =>
    simp only [parseExpPart] at h
    split at h
    · next heE =>
      split at h
      · exact absurd h (by simp)
      · next hcond =>
        have hds : r.dropWhile isSpaceChar = r.dropWhile isSpaceChar := rfl
        have hr3 : (takeSign r).2.dropWhile isDigitChar = [] := by
          rcases not_or.mp hcond with ⟨-, h2⟩
          exact not_ne_iff.mp h2
        rcases List.mem_cons.mp hc with hce | hcr
        · rcases heE with h1 | h1
          · exact Or.inl (hce.trans h1)
          · exact Or.inr (Or.inl (hce.trans h1))
        · have hdecomp := takeSign_decomp r
          have hinner : ∀ x ∈ (takeSign r).2, isDigitChar x = true := by
            intro x hx
            have hsplit : (takeSign r).2.takeWhile isDigitChar
                ++ (takeSign r).2.dropWhile isDigitChar = (takeSign r).2 :=
              List.takeWhile_append_dropWhile isDigitChar (takeSign r).2
            rw [← hsplit] at hx
            rcases List.mem_append.mp hx with hxt | hxd
            · exact List.mem_takeWhile_imp hxt
            · rw [hr3] at hxd
              cases hxd
          rcases hdecomp with hd | hd | hd
          · rw [hd] at hcr
            exact Or.inr (Or.inr (Or.inr (Or.inr (hinner c hcr))))
          · rw [hd] at hcr
            rcases List.mem_cons.mp hcr with hcm | hcm
            · exact Or.inr (Or.inr (Or.inl hcm))
            · exact Or.inr (Or.inr (Or.inr (Or.inr (hinner c hcm))))
          · rw [hd] at hcr
            rcases List.mem_cons.mp hcr with hcm | hcm
            · exact Or.inr (Or.inr (Or.inr (Or.inl hcm)))
            · exact Or.inr (Or.inr (Or.inr (Or.inr (hinner c hcm))))
    · exact absurd h (by simp)

theorem parseFloat_chars (p : List Char) (v : ℚ) (h : parseFloat p = some v) :
    ∀ c ∈ stripWS p,
      isDigitChar c = true ∨ c = '.' ∨ c = '-' ∨ c = '+' ∨ c = 'e' ∨ c = 'E' := by
  intro c hc
  simp only [parseFloat] at h
  cases hm : parseMantissa (takeSign (stripWS p)).2 with
  | none => rw [hm] at h; exact absurd h (by simp)
  | some pr =>
    obtain ⟨m1, r1⟩ := pr
    rw [hm] at h
    cases he : parseExpPart r1 with
    | none =>
      have h2 : (match parseExpPart r1 with
          | none => (none : Option ℚ)
          | some mult =>
            some ((if (takeSign (stripWS p)).1 = true then -m1 else m1) * mult)) = some v := h
      rw [he] at h2
      exact absurd h2 (by simp)
    | some mult =>
      have hdecomp := takeSign_decomp (stripWS p)
      have hinner : ∀ x ∈ (takeSign (stripWS p)).2,
          isDigitChar x = true ∨ x = '.' ∨ x = '-' ∨ x = '+' ∨ x = 'e' ∨ x = 'E' := by
        intro x hx
        rcases parseMantissa_chars _ m1 r1 (by rw [hm]) x hx with hrest | hdig | hdot
        · rcases parseExpPart_chars r1 mult he x hrest with h1 | h1 | h1 | h1 | h1
          · exact Or.inr (Or.inr (Or.inr (Or.inr (Or.inl h1))))
          · exact Or.inr (Or.inr (Or.inr (Or.inr (Or.inr h1))))
          · exact Or.inr (Or.inr (Or.inl h1))
          · exact Or.inr (Or.inr (Or.inr (Or.inl h1)))
          · exact Or.inl h1
        · exact Or.inl hdig
        · exact Or.inr (Or.inl hdot)
      rcases hdecomp with hd | hd | hd
      · rw [hd] at hc
        exact hinner c hc
      · rw [hd] at hc
        rcases List.mem_cons.mp hc with hcm | hcm
        · exact Or.inr (Or.inr (Or.inl hcm))
        · exact hinner c hcm
      · rw [hd] at hc
        rcases List.mem_cons.mp hc with hcm | hcm
        · exact Or.inr (Or.inr (Or.inr (Or.inl hcm)))
        · exact hinner c hcm

theorem parseFloat_none_of_tab (p : List Char) (h : '\t' ∈ stripWS p) : parseFloat p = none := by
  cases hf : parseFloat p with
  | none => rfl
  | some v =>
    have hall := parseFloat_chars p v hf '\t' h
    exact absurd hall (by decide)

theorem parseFloats_none_of_mem (parts : List (List Char)) (p : List Char)
    (hp : p ∈ parts) (hnone : parseFloat p = none) : parseFloats parts = none := by
  induction parts with
  | nil => cases hp
  | cons t rest ih =>
    rcases List.mem_cons.mp hp with heq | hmem
    · subst heq
      simp [parseFloats, hnone]
    · cases ht : parseFloat t with
      | none => simp [parseFloats, ht]
      | some w => simp [parseFloats, ht, ih hmem]

/-- Claim C10: `load_embeddings` splits each line on the single ASCII
space character only. Any line whose numeric fields (the fields after
the leading token, `parts[1:]`) contain an empty field (produced by two
or more consecutive spaces) or a field that still contains a tab after
whitespace stripping (produced by a tab separating two numeric values)
fails float parsing and is skipped whole: `parseLine` yields no vector,
so the line contributes nothing to the reader's output, even when its
numeric content is otherwise well-formed. -/
theorem c10_reader_single_space_split (line : List Char)
    (h : ∃ p ∈ (splitOnChar ' ' (rstripWS line)).drop 1, p = [] ∨ '\t' ∈ stripWS p) :
    parseLine line = none
      ∧ ∀ pre post : List (List Char),
          (pre ++ line :: post).filterMap parseLine
            = pre.filterMap parseLine ++ post.filterMap parseLine := by
  rcases h with ⟨p, hp, hcase⟩
  have hnone : parseFloat p = none := by
    rcases hcase with h0 | ht
    · rw [h0]
      rfl
    · exact parseFloat_none_of_tab p ht
  have hline : parseLine line = none := by
    by_cases hlen : (splitOnChar ' ' (rstripWS line)).length < 3
    · simp [parseLine, hlen]
    · have hp2 : p ∈ (splitOnChar ' ' (rstripWS line)).tail := by
        rw [← List.drop_one]
        exact hp
      simp [parseLine, hlen, parseFloats_none_of_mem _ p hp2 hnone]
  refine ⟨hline, ?_⟩
  intro pre post
  simp [List.filterMap_append, List.filterMap_cons, hline]

/-- Witness for C10: the line "word 1.0<TAB>2.0" (tab-separated numeric
fields) and, through the same theorem shape, its skip behaviour. -/
theorem c10_reader_single_space_split_witness :
    parseLine ("word 1.0\t2.0".toList) = none
      ∧ ∀ pre post : List (List Char),
          (pre ++ "word 1.0\t2.0".toList :: post).filterMap parseLine
            = pre.filterMap parseLine ++ post.filterMap parseLine :=
  c10_reader_single_space_split ("word 1.0\t2.0".toList) (by decide)

theorem sumSq_nonneg (r : List ℝ) : 0 ≤ sumSq r := by
  apply List.sum_nonneg
  intro x hx
  rcases List.mem_map.mp hx with ⟨y, _, hy⟩
  rw [← hy]
  exact mul_self_nonneg y

theorem normEps_pos : (0 : ℝ) < normEps := by
  rw [normEps]
  norm_num

theorem sumSq_map_div (r : List ℝ) (c : ℝ) (hc : c ≠ 0) :
    sumSq (r.map (fun x => x / c)) = sumSq r / c ^ 2 := by
  induction r with
  | nil => simp [sumSq]
  | cons x xs ih =>
    simp only [List.map_cons, sumSq, List.sum_cons] at ih ⊢
    rw [ih]
    field_simp
    ring

theorem rowNorm_map_div (r : List ℝ) (c : ℝ) (hc : 0 < c) :
    rowNorm (r.map (fun x => x / c)) = rowNorm r / c := by
  rw [rowNorm, sumSq_map_div r c (ne_of_gt hc), Real.sqrt_div (sumSq_nonneg r),
    Real.sqrt_sq (le_of_lt hc), rowNorm]

theorem abs_le_rowNorm (r : List ℝ) (x : ℝ) (hx : x ∈ r) : |x| ≤ rowNorm r := by
  have hsq : x * x ≤ sumSq r := by
    apply List.single_le_sum
    · intro a ha
      rcases List.mem_map.mp ha with ⟨y, _, hy⟩
      rw [← hy]
      exact mul_self_nonneg y
    · exact List.mem_map_of_mem (fun y => y * y) hx
  calc |x| = Real.sqrt (x * x) := (Real.sqrt_mul_self_eq_abs x).symm
    _ ≤ Real.sqrt (sumSq r) := Real.sqrt_le_sqrt hsq
    _ = rowNorm r := rfl

/-- Claim C6: for every non-empty VectorSet, `l2_normalize` returns a
set of the same shape; every row whose original L2 norm is at least
epsilon (1e-10) is rescaled to norm exactly 1 (exact in the real-number
idealization, hence within floating-point tolerance in the source);
every row whose norm is below epsilon is the original row divided by
epsilon, a bounded finite vector (each entry has absolute value below 1,
so no NaN or infinity can arise). -/
theorem c6_l2_normalize_norms (data : List (List ℝ)) (_hne : data ≠ []) :
    (l2_normalize data).length = data.length
    ∧ ∀ r ∈ data,
        (normalizeRow r).length = r.length
        ∧ (normEps ≤ rowNorm r → rowNorm (normalizeRow r) = 1)
        ∧ (rowNorm r < normEps →
            normalizeRow r = r.map (fun x => x / normEps)
            ∧ ∀ y ∈ normalizeRow r, |y| < 1) := by
  refine ⟨by rw [l2_normalize, List.length_map], ?_⟩
  intro r _
  refine ⟨by rw [normalizeRow, List.length_map], ?_, ?_⟩
  · intro hge
    have hmax : max (rowNorm r) normEps = rowNorm r := max_eq_left hge
    have hpos : 0 < rowNorm r := lt_of_lt_of_le normEps_pos hge
    rw [normalizeRow]
    simp only [hmax]
    rw [rowNorm_map_div r (rowNorm r) hpos, div_self (ne_of_gt hpos)]
  · intro hlt
    have hmax : max (rowNorm r) normEps = normEps := max_eq_right (le_of_lt hlt)
    constructor
    · rw [normalizeRow]
      simp only [hmax]
    · intro y hy
      rw [normalizeRow] at hy
      simp only [hmax] at hy
      rcases List.mem_map.mp hy with ⟨x, hxr, hxy⟩
      rw [← hxy, abs_div, abs_of_pos normEps_pos, div_lt_one normEps_pos]
      exact lt_of_le_of_lt (abs_le_rowNorm r x hxr) hlt

/-- Witness for C6 at the concrete one-row set [[3, 4]]. -/
theorem c6_l2_normalize_norms_witness :
    (l2_normalize [[(3 : ℝ), 4]]).length = ([[(3 : ℝ), 4]] : List (List ℝ)).length
    ∧ ∀ r ∈ ([[(3 : ℝ), 4]] : List (List ℝ)),
        (normalizeRow r).length = r.length
        ∧ (normEps ≤ rowNorm r → rowNorm (normalizeRow r) = 1)
        ∧ (rowNorm r < normEps →
            normalizeRow r = r.map (fun x => x / normEps)
            ∧ ∀ y ∈ normalizeRow r, |y| < 1) :=
  c6_l2_normalize_norms [[(3 : ℝ), 4]] (by simp)

/-- Claim C5: the Streaming Clusterer is deterministic. All randomness
in the embedding flows from the explicit seed (`RandomState(42)` and
`random_state=42` in the source), so two runs of `kmeans_cluster` with
the same seed, the same input VectorSet in the same order, and identical
`(k, b, E)` produce identical centroid matrices. -/
theorem c5_kmeans_cluster_deterministic (s1 s2 : ℕ) (d1 d2 : List (List ℚ))
    (k1 k2 b1 b2 e1 e2 : ℕ) (hs : s1 = s2) (hd : d1 = d2) (hk : k1 = k2)
    (hb : b1 = b2) (he : e1 = e2) :
    kmeans_cluster s1 d1 k1 b1 e1 = kmeans_cluster s2 d2 k2 b2 e2 := by
  rw [hs, hd, hk, hb, he]

/-- Witness for C5 at a concrete run. -/
theorem c5_kmeans_cluster_deterministic_witness :
    kmeans_cluster 42 [[0], [1]] 1 1 3 = kmeans_cluster 42 [[0], [1]] 1 1 3 :=
  c5_kmeans_cluster_deterministic 42 42 [[0], [1]] [[0], [1]] 1 1 1 1 3 3 rfl rfl rfl rfl rfl

theorem prevCheckInertia_succ_check (I : ℕ → ℚ) (e : ℕ) (h : (e + 1) % 10 = 0) :
    prevCheckInertia I (e + 1) = some (I e) := by
  rw [prevCheckInertia, if_neg (by omega)]
  have harg : 10 * ((e + 1) / 10) - 1 = e := by omega
  rw [harg]

theorem prevCheckInertia_succ_nocheck (I : ℕ → ℚ) (e : ℕ) (h : (e + 1) % 10 ≠ 0) :
    prevCheckInertia I (e + 1) = prevCheckInertia I e := by
  rw [prevCheckInertia, prevCheckInertia]
  by_cases h10 : e < 10
  · rw [if_pos (by omega), if_pos h10]
  · rw [if_neg (by omega), if_neg h10]
    have harg : 10 * ((e + 1) / 10) - 1 = 10 * (e / 10) - 1 := by omega
    rw [harg]

theorem kmeansEpochLoopGo_spec (I : ℕ → ℚ) :
    ∀ fuel e, kmeansEpochLoopGo I fuel e (prevCheckInertia I e)
      = (match (List.range' e fuel).find? (stopCondB I) with
         | some c => c + 1
         | none => e + fuel) := by
  intro fuel
  induction fuel with
  | zero =>
    intro e
    simp [kmeansEpochLoopGo]
  | succ fuel ih =>
    intro e
    rw [List.range'_succ]
    by_cases hchk : (e + 1) % 10 = 0
    · by_cases hbc : 0 < deltaAt I e ∧ deltaAt I e < 1 / 100 ∧ 50 < e
      · have hstop : stopCondB I e = true := decide_eq_true ⟨hchk, hbc⟩
        rw [List.find?_cons_of_pos _ hstop]
        simp only [kmeansEpochLoopGo]
        rw [if_pos hchk]
        have hbc2 : 0 < (match prevCheckInertia I e with
            | none => (0 : ℚ)
            | some pv => (pv - I e) / pv * 100)
            ∧ (match prevCheckInertia I e with
              | none => (0 : ℚ)
              | some pv => (pv - I e) / pv * 100) < 1 / 100 ∧ 50 < e := hbc
        rw [if_pos hbc2]
      · have hstop : ¬stopCondB I e = true := by
          simp only [stopCondB, decide_eq_true_eq]
          rintro ⟨-, hrest⟩
          exact hbc hrest
        rw [List.find?_cons_of_neg _ hstop]
        simp only [kmeansEpochLoopGo]
        rw [if_pos hchk]
        have hbc2 : ¬(0 < (match prevCheckInertia I e with
            | none => (0 : ℚ)
            | some pv => (pv - I e) / pv * 100)
            ∧ (match prevCheckInertia I e with
              | none => (0 : ℚ)
              | some pv => (pv - I e) / pv * 100) < 1 / 100 ∧ 50 < e) := hbc
        rw [if_neg hbc2]
        rw [← prevCheckInertia_succ_check I e hchk]
        rw [ih (e + 1)]
        have harith : e + (fuel + 1) = (e + 1) + fuel := by omega
        rw [harith]
    · have hstop : ¬stopCondB I e = true := by
        simp only [stopCondB, decide_eq_true_eq]
        rintro ⟨h1, -⟩
        exact hchk h1
      rw [List.find?_cons_of_neg _ hstop]
      simp only [kmeansEpochLoopGo]
      rw [if_neg hchk]
      rw [← prevCheckInertia_succ_nocheck I e hchk]
      rw [ih (e + 1)]
      have harith : e + (fuel + 1) = (e + 1) + fuel := by omega
      rw [harith]

/-- Claim C2 (amended): total inertia is checked every 10 epochs, and
the epoch loop terminates before exhausting the epoch cap `E` exactly
when some check sees a relative inertia improvement strictly between 0
and 0.01 percent with the 0-based epoch index strictly greater than 50
(the source guard is `epoch > 50`, so with the 10-epoch cadence the
earliest early stop is at epoch index 59, after 60 elapsed epochs, not
50); the loop stops at the first such check and never under any other
condition (an improvement of exactly 0 percent never triggers it). The
positivity hypothesis restricts to traces where the checked inertia is
positive, as a sum of squared distances is; at a zero previous inertia
the source would instead die of a `ZeroDivisionError`. -/
theorem c2_convergence_policy (I : ℕ → ℚ) (E : ℕ) (_hI : ∀ e, 0 < I e) :
    kmeansEpochsRun I E
      = (match firstStop I E with
         | some c => c + 1
         | none => E)
    ∧ ∀ e, stopCondB I e = true → (e + 1) % 10 = 0 ∧ 0 < deltaAt I e
        ∧ deltaAt I e < 1 / 100 ∧ 50 < e ∧ 59 ≤ e := by
  constructor
  · have h0 : prevCheckInertia I 0 = none := rfl
    rw [kmeansEpochsRun, ← h0, kmeansEpochLoopGo_spec I E 0]
    rw [firstStop, List.range_eq_range']
    cases hf : (List.range' 0 E).find? (stopCondB I) with
    | none => simp [hf]
    | some c => simp [hf]
  · intro e he
    have hprops : (e + 1) % 10 = 0 ∧ 0 < deltaAt I e ∧ deltaAt I e < 1 / 100 ∧ 50 < e :=
      of_decide_eq_true he
    obtain ⟨h1, h2, h3, h4⟩ := hprops
    exact ⟨h1, h2, h3, h4, by omega⟩

/-- Witness for the amended C2 on the concrete trace `inertiaTrace0`
with epoch cap 60. -/
theorem c2_convergence_policy_witness :
    kmeansEpochsRun inertiaTrace0 60
      = (match firstStop inertiaTrace0 60 with
         | some c => c + 1
         | none => 60)
    ∧ ∀ e, stopCondB inertiaTrace0 e = true → (e + 1) % 10 = 0 ∧ 0 < deltaAt inertiaTrace0 e
        ∧ deltaAt inertiaTrace0 e < 1 / 100 ∧ 50 < e ∧ 59 ≤ e :=
  c2_convergence_policy inertiaTrace0 60 (by
    intro e
    rw [inertiaTrace0]
    split_ifs <;> norm_num)

/-- Counterexample to C2 as stated: on the concrete inertia trace
`inertiaTrace0` with epoch cap 60, the epoch-49 convergence check (50
epochs elapsed, satisfying "at least 50") sees a relative improvement of
0.005 percent, strictly between 0 and 0.01 percent, so the claim says
the loop stops early; the code does not stop there (its guard is
`epoch > 50`, false at epoch 49) and the run completes all 60 epochs. -/
theorem c2_counterexample :
    ((49 + 1) % 10 = 0 ∧ 0 < deltaAt inertiaTrace0 49 ∧ deltaAt inertiaTrace0 49 < 1 / 100
      ∧ 50 ≤ 49 + 1)
    ∧ kmeansEpochsRun inertiaTrace0 60 = 60 := by
  constructor
  · refine ⟨by norm_num, ?_, ?_, by norm_num⟩
    · norm_num [deltaAt, prevCheckInertia, inertiaTrace0]
    · norm_num [deltaAt, prevCheckInertia, inertiaTrace0]
  · have h0 : prevCheckInertia inertiaTrace0 0 = none := rfl
    rw [kmeansEpochsRun, ← h0, kmeansEpochLoopGo_spec inertiaTrace0 60 0]
    rw [← List.range_eq_range']
    have hnone : (List.range 60).find? (stopCondB inertiaTrace0) = none := by
      rw [List.find?_eq_none]
      intro x hx
      rw [List.mem_range] at hx
      intro hstop
      have hprops : (x + 1) % 10 = 0 ∧ 0 < deltaAt inertiaTrace0 x
          ∧ deltaAt inertiaTrace0 x < 1 / 100 ∧ 50 < x := of_decide_eq_true hstop
      obtain ⟨h1, -, h3, h4⟩ := hprops
      have hx59 : x = 59 := by omega
      subst hx59
      norm_num [deltaAt, prevCheckInertia, inertiaTrace0] at h3
    simp [hnone]

theorem vadd_length (a b : List ℚ) : (vadd a b).length = min a.length b.length :=
  List.length_zipWith (· + ·) a b

theorem vsub_length (a b : List ℚ) : (vsub a b).length = min a.length b.length :=
  List.length_zipWith (· - ·) a b

theorem vscale_length (c : ℚ) (v : List ℚ) : (vscale c v).length = v.length :=
  List.length_map v (fun x => c * x)

theorem foldl_vadd_length (l : List (List ℚ)) (d : ℕ) (hl : ∀ x ∈ l, x.length = d) :
    ∀ acc : List ℚ, acc.length = d → (l.foldl vadd acc).length = d := by
  induction l with
  | nil => intro acc hacc; exact hacc
  | cons x xs ih =>
    intro acc hacc
    have hx : x.length = d := hl x (List.mem_cons_self x xs)
    have hxs : ∀ y ∈ xs, y.length = d := fun y hy => hl y (List.mem_cons_of_mem x hy)
    show (xs.foldl vadd (vadd acc x)).length = d
    exact ih hxs (vadd acc x) (by rw [vadd_length, hacc, hx, min_self])

theorem vsumD_length (d : ℕ) (l : List (List ℚ)) (hl : ∀ x ∈ l, x.length = d) :
    (vsumD d l).length = d :=
  foldl_vadd_length l d hl (List.replicate d 0) (List.length_replicate d 0)

theorem shuffleNatGo_length : ∀ (fuel : ℕ) (l : List ℕ) (r : RngState),
    fuel = l.length → ((shuffleNatGo fuel l r).1).length = fuel := by
  intro fuel
  induction fuel with
  | zero => intro l r _; rfl
  | succ fuel ih =>
    intro l r hfl
    have hlne : l.length = fuel + 1 := hfl.symm
    have hbound : l.length ≠ 0 := by omega
    have hj : (rngNat r l.length).1 < l.length := by
      rw [rngNat]
      simp only [if_neg hbound]
      exact Nat.mod_lt _ (by omega)
    have herase : (l.eraseIdx (rngNat r l.length).1).length = fuel := by
      rw [List.length_eraseIdx_of_lt hj]
      omega
    show ((l.getD (rngNat r l.length).1 0)
        :: (shuffleNatGo fuel (l.eraseIdx (rngNat r l.length).1) (rngNat r l.length).2).1).length
        = fuel + 1
    rw [List.length_cons, ih _ _ herase.symm]

theorem shuffleNatGo_mem : ∀ (fuel : ℕ) (l : List ℕ) (r : RngState) (x : ℕ),
    fuel = l.length → x ∈ (shuffleNatGo fuel l r).1 → x ∈ l := by
  intro fuel
  induction fuel with
  | zero => intro l r x _ hx; cases hx
  | succ fuel ih =>
    intro l r x hfl hx
    have hlne : l.length = fuel + 1 := hfl.symm
    have hbound : l.length ≠ 0 := by omega
    have hj : (rngNat r l.length).1 < l.length := by
      rw [rngNat]
      simp only [if_neg hbound]
      exact Nat.mod_lt _ (by omega)
    have herase : (l.eraseIdx (rngNat r l.length).1).length = fuel := by
      rw [List.length_eraseIdx_of_lt hj]
      omega
    have hx2 : x ∈ (l.getD (rngNat r l.length).1 0)
        :: (shuffleNatGo fuel (l.eraseIdx (rngNat r l.length).1) (rngNat r l.length).2).1 := hx
    rcases List.mem_cons.mp hx2 with hhead | htail
    · rw [hhead, List.getD_eq_getElem l 0 hj]
      exact List.getElem_mem hj
    · have hmem := ih _ _ x herase.symm htail
      exact (List.eraseIdx_sublist l (rngNat r l.length).1).mem hmem

theorem shuffleNat_length (l : List ℕ) (r : RngState) :
    ((shuffleNat l r).1).length = l.length :=
  shuffleNatGo_length l.length l r rfl

theorem shuffleNat_mem (l : List ℕ) (r : RngState) (x : ℕ)
    (hx : x ∈ (shuffleNat l r).1) : x ∈ l :=
  shuffleNatGo_mem l.length l r x rfl hx

theorem updateCenter_length (c : List ℚ) (assigned : List (List ℚ)) (q1 q2 : ℚ) (d : ℕ)
    (hc : c.length = d) (ha : ∀ y ∈ assigned, y.length = d) :
    (vadd c (vscale q2 (vsub (vscale q1 (vsumD c.length assigned)) c))).length = d := by
  have hs : (vsumD c.length assigned).length = d := by
    rw [hc]
    exact vsumD_length d assigned ha
  rw [vadd_length, vscale_length, vsub_length, vscale_length, hs, hc]
  omega

theorem miniBatchStep_centers_length (km : KMState) (batch : List (List ℚ)) :
    (miniBatchStep km batch).centers.length = km.centers.length := by
  simp only [miniBatchStep]
  exact List.length_mapIdx

theorem miniBatchStep_centers_uniform (km : KMState) (batch : List (List ℚ)) (d : ℕ)
    (hc : ∀ c ∈ km.centers, c.length = d) (hb : ∀ x ∈ batch, x.length = d) :
    ∀ c ∈ (miniBatchStep km batch).centers, c.length = d := by
  intro c hcm
  simp only [miniBatchStep] at hcm
  rw [List.mem_iff_get] at hcm
  obtain ⟨⟨i, hi⟩, heq⟩ := hcm
  have hi2 : i < km.centers.length := by
    have := hi
    rw [List.length_mapIdx] at this
    exact this
  rw [List.get_mapIdx _ _ i hi2] at heq
  have hci : (km.centers.get ⟨i, hi2⟩).length = d := hc _ (List.get_mem km.centers i hi2)
  have hassigned : ∀ y ∈ ((batch.map (fun x => (nearestIdx km.centers x, x))).filter
      (fun p => p.1 == i)).map (fun p => p.2), y.length = d := by
    intro y hy
    rcases List.mem_map.mp hy with ⟨p, hp, hpy⟩
    have hp2 := (List.mem_filter.mp hp).1
    rcases List.mem_map.mp hp2 with ⟨x, hx, hxp⟩
    rw [← hpy, ← hxp]
    exact hb x hx
  rw [← heq]
  split
  · exact hci
  · exact updateCenter_length _ _ _ _ d hci hassigned

theorem foldl_miniBatchStep_shape (batches : List (List (List ℚ))) (d : ℕ) :
    ∀ km : KMState, (∀ c ∈ km.centers, c.length = d)
      → (∀ b ∈ batches, ∀ x ∈ b, x.length = d)
      → (batches.foldl miniBatchStep km).centers.length = km.centers.length
        ∧ ∀ c ∈ (batches.foldl miniBatchStep km).centers, c.length = d := by
  induction batches with
  | nil => intro km h1 _; exact ⟨rfl, h1⟩
  | cons b bs ih =>
    intro km h1 h2
    have hb : ∀ x ∈ b, x.length = d := h2 b (List.mem_cons_self b bs)
    have hbs : ∀ q ∈ bs, ∀ x ∈ q, x.length = d :=
      fun q hq => h2 q (List.mem_cons_of_mem b hq)
    have hstep := ih (miniBatchStep km b) (miniBatchStep_centers_uniform km b d h1 hb) hbs
    refine ⟨?_, hstep.2⟩
    show (bs.foldl miniBatchStep (miniBatchStep km b)).centers.length = km.centers.length
    rw [hstep.1, miniBatchStep_centers_length]

theorem kmBatches_uniform (data : List (List ℚ)) (perm : List ℕ) (bs bpe d : ℕ)
    (hd : ∀ r ∈ data, r.length = d) (hperm : ∀ i ∈ perm, i < data.length) :
    ∀ b ∈ kmBatches data perm bs bpe, ∀ x ∈ b, x.length = d := by
  intro b hb x hx
  rw [kmBatches] at hb
  rcases List.mem_map.mp hb with ⟨j, _, hjb⟩
  rw [← hjb] at hx
  rcases List.mem_map.mp hx with ⟨i, hi, hix⟩
  have hiperm : i ∈ perm := List.mem_of_mem_drop (List.mem_of_mem_take hi)
  have hilt : i < data.length := hperm i hiperm
  rw [← hix, List.getD_eq_getElem data [] hilt]
  exact hd _ (List.getElem_mem hilt)

theorem initKM_shape (k : ℕ) (batch : List (List ℚ)) (rng : RngState) (d : ℕ)
    (hk : k ≤ batch.length) (hb : ∀ x ∈ batch, x.length = d) :
    (initKM k batch rng).1.centers.length = k
    ∧ ∀ c ∈ (initKM k batch rng).1.centers, c.length = d := by
  have hseed : ∀ c ∈ (((shuffleNat (List.range batch.length) rng).1.take k).map
      (fun i => batch.getD i [])), c.length = d := by
    intro c hc
    rcases List.mem_map.mp hc with ⟨i, hi, hic⟩
    have hiperm : i ∈ (shuffleNat (List.range batch.length) rng).1 := List.mem_of_mem_take hi
    have hilt : i < batch.length :=
      List.mem_range.mp (shuffleNat_mem (List.range batch.length) rng i hiperm)
    rw [← hic, List.getD_eq_getElem batch [] hilt]
    exact hb _ (List.getElem_mem hilt)
  have hlen : (((shuffleNat (List.range batch.length) rng).1.take k).map
      (fun i => batch.getD i [])).length = k := by
    rw [List.length_map, List.length_take, shuffleNat_length, List.length_range]
    omega
  constructor
  · show (miniBatchStep ⟨_, _, _⟩ batch).centers.length = k
    rw [miniBatchStep_centers_length]
    exact hlen
  · show ∀ c ∈ (miniBatchStep ⟨_, _, _⟩ batch).centers, c.length = d
    exact miniBatchStep_centers_uniform _ batch d hseed hb

theorem kmEpochGo_shape (data : List (List ℚ)) (bs bpe k d : ℕ)
    (hd : ∀ r ∈ data, r.length = d) :
    ∀ (fuel e : ℕ) (prev : Option ℚ) (km : KMState) (rng : RngState),
      km.centers.length = k → (∀ c ∈ km.centers, c.length = d) →
      (kmEpochGo data bs bpe fuel e prev km rng).centers.length = k
      ∧ ∀ c ∈ (kmEpochGo data bs bpe fuel e prev km rng).centers, c.length = d := by
  intro fuel
  induction fuel with
  | zero => intro e prev km rng h1 h2; exact ⟨h1, h2⟩
  | succ fuel ih =>
    intro e prev km rng h1 h2
    have hperm : ∀ i ∈ (shuffleNat (List.range data.length) rng).1, i < data.length := by
      intro i hi
      exact List.mem_range.mp (shuffleNat_mem _ rng i hi)
    have hbatches := kmBatches_uniform data (shuffleNat (List.range data.length) rng).1
      bs bpe d hd hperm
    have hfold := foldl_miniBatchStep_shape
      (kmBatches data (shuffleNat (List.range data.length) rng).1 bs bpe) d km h2 hbatches
    have hlen2 : ((kmBatches data (shuffleNat (List.range data.length) rng).1 bs bpe).foldl
        miniBatchStep km).centers.length = k := by rw [hfold.1, h1]
    simp only [kmEpochGo]
    split
    · split
      · exact ⟨hlen2, hfold.2⟩
      · exact ih (e + 1) _ _ _ hlen2 hfold.2
    · exact ih (e + 1) _ _ _ hlen2 hfold.2

/-- Counterexample to C1 as stated: with n = 2 vectors, k = 1, batch
size b = 3 > n and E = 1 — a configuration the claim calls valid
(1 ≤ k ≤ 65536, n ≥ k) and for which it asserts success with exactly
one centroid row — the initialization draw of `max(k, b) = 3` distinct
samples from a population of 2 fails (`rng.choice(2, size=3,
replace=False)` raises `ValueError`), so `kmeans_cluster` produces no
centroid matrix at all. -/
theorem c1_counterexample : kmeans_cluster 42 [[0], [1]] 1 3 1 = none := by decide

/-- Claim C1 (amended): for every input VectorSet of `n` vectors of
dimension `d` and every configuration with `1 ≤ k ≤ 65536`, `n ≥ k`,
`1 ≤ b ≤ n` and `E ≥ 1`, the Streaming Clusterer succeeds and returns a
centroid matrix with exactly `k` rows, each of dimension `d`. The bound
`b ≤ n` (equivalently `max(k, b) ≤ n`) is forced by the initialization's
sample-without-replacement; `b ≥ 1` avoids the source's division by zero
in `n // batch_size` and `E ≥ 1` the solver's `max_iter` validation. -/
theorem c1_kmeans_cluster_shape (seed : ℕ) (data : List (List ℚ)) (d k bs E : ℕ)
    (_hk1 : 1 ≤ k) (_hk2 : k ≤ 65536) (hkn : k ≤ data.length) (_hb1 : 1 ≤ bs)
    (hbn : bs ≤ data.length) (_hE : 1 ≤ E) (hd : ∀ r ∈ data, r.length = d) :
    ∃ M, kmeans_cluster seed data k bs E = some M ∧ M.length = k ∧ ∀ r ∈ M, r.length = d := by
  have hinit : max k bs ≤ data.length := max_le hkn hbn
  simp only [kmeans_cluster, rngChoiceNoReplace]
  rw [if_pos hinit]
  refine ⟨_, rfl, ?_, ?_⟩
  all_goals {
    have hIdx : ∀ i ∈ (shuffleNat (List.range data.length) ⟨seed⟩).1.take (k ⊔ bs),
        i < data.length := by
      intro i hi
      exact List.mem_range.mp (shuffleNat_mem _ _ i (List.mem_of_mem_take hi))
    have hBatchUni : ∀ x ∈ (List.map (fun i => data.getD i [])
        ((shuffleNat (List.range data.length) ⟨seed⟩).1.take (k ⊔ bs))), x.length = d := by
      intro x hx
      rcases List.mem_map.mp hx with ⟨i, hi, hix⟩
      have hilt := hIdx i hi
      rw [← hix, List.getD_eq_getElem data [] hilt]
      exact hd _ (List.getElem_mem hilt)
    have hBatchLen : (List.map (fun i => data.getD i [])
        ((shuffleNat (List.range data.length) ⟨seed⟩).1.take (k ⊔ bs))).length = k ⊔ bs := by
      rw [List.length_map, List.length_take, shuffleNat_length, List.length_range]
      exact Nat.min_eq_left hinit
    have hk_le : k ≤ (List.map (fun i => data.getD i [])
        ((shuffleNat (List.range data.length) ⟨seed⟩).1.take (k ⊔ bs))).length := by
      rw [hBatchLen]
      exact le_max_left k bs
    have hkm0 := initKM_shape k (List.map (fun i => data.getD i [])
      ((shuffleNat (List.range data.length) ⟨seed⟩).1.take (k ⊔ bs))) ⟨seed⟩ d hk_le hBatchUni
    have hfinal := kmEpochGo_shape data bs (1 ⊔ data.length / bs) k d hd E 0 none
      (initKM k (List.map (fun i => data.getD i [])
        ((shuffleNat (List.range data.length) ⟨seed⟩).1.take (k ⊔ bs))) ⟨seed⟩).1
      (shuffleNat (List.range data.length) ⟨seed⟩).2 hkm0.1 hkm0.2
    first
    | exact hfinal.1
    | exact hfinal.2
  }

/-- Witness for the amended C1 at the concrete run with two 1-d vectors,
k = 1, b = 1, E = 1. -/
theorem c1_kmeans_cluster_shape_witness :
    ∃ M, kmeans_cluster 42 [[0], [1]] 1 1 1 = some M
      ∧ M.length = 1 ∧ ∀ r ∈ M, r.length = 1 :=
  c1_kmeans_cluster_shape 42 [[0], [1]] 1 1 1 1 (by decide) (by decide) (by decide)
    (by decide) (by decide) (by decide) (by decide)
